import Mathlib

/-
Verification of the trefoil zonal-statistics / categorical-summarization core.

Shallow embedding of:
  * trefoil/analysis/summary.py
      - VALID_ZONAL_STATISTICS, summarize_count_by_category,
        summarize_areas_by_category, calculate_weighted_statistics,
        statistic_by_interval, calculate_zonal_statistics
  * trefoil/analysis/timeseries.py
      - extract_categorical_timeseries_by_area
  * trefoil/cli/zones.py
      - the feature-deduplication loop of the `zones` command

Modelling conventions:
  * numpy arrays are Lean lists (row-major); a masked array is a list of
    (value, maskFlag) pairs with maskFlag = true meaning the cell is masked
    (invalid), matching numpy.ma conventions.
  * floating-point values are modelled as rationals (ℚ); a standard
    deviation, which needs a square root, is kept symbolically as
    `StatVal.sqrtVal v` meaning "the square root of v".
  * Python exceptions become an `Except PyErr` result; the distinct Python
    exception classes raised by this code (ValueError, AssertionError,
    ZeroDivisionError) are separate constructors.
  * Python dicts are association lists in insertion order; writing to an
    existing key replaces the value in place, a new key is appended.
-/

set_option linter.unusedVariables false

deriving instance DecidableEq for Except

/-- Python exception classes raised by the embedded code. -/
inductive PyErr where
  | valueError (msg : String)
  | assertionError
  | zeroDivisionError
  deriving Repr, DecidableEq

/-- Result value of one statistic.  `num q` is the exact rational value;
`sqrtVal q` is the (symbolic) square root of `q`, used for `std`, whose
exact value is irrational in general. -/
inductive StatVal where
  | num (q : ℚ)
  | sqrtVal (q : ℚ)
  deriving Repr, DecidableEq

/-- summary.py line 5: `VALID_ZONAL_STATISTICS = {'mean', 'min', 'max', 'std', 'sum', 'count'}`. -/
def VALID_ZONAL_STATISTICS : List String :=
  ["mean", "min", "max", "std", "sum", "count"]

/-- Values of the unmasked cells of a masked row (numpy.ma `compressed`). -/
def unmaskedVals (row : List (ℚ × Bool)) : List ℚ :=
  (row.filter (fun c => !c.2)).map Prod.fst

/-- Minimum of a nonempty list of rationals (none on empty). -/
def listMin : List ℚ → Option ℚ
  | [] => none
  | x :: rest => some (rest.foldl min x)

/-- Maximum of a nonempty list of rationals (none on empty). -/
def listMax : List ℚ → Option ℚ
  | [] => none
  | x :: rest => some (rest.foldl max x)

/-- Population variance of a list of rationals (numpy `std` squared,
ddof = 0). -/
def popVariance (xs : List ℚ) : ℚ :=
  (xs.map (fun x => (x - xs.sum / (xs.length : ℚ)) ^ 2)).sum / (xs.length : ℚ)

/-- One reduction of summary.py lines 165-170 over one row (one leading-index
slice restricted to a zone): `count` is `(masked.mask == False).sum(...)`,
which is 0 (not masked) on a fully masked row; the other statistics are
numpy.ma reductions, which return the masked constant (`none`) when every
cell of the row is masked. -/
def statOnRow (stat : String) (row : List (ℚ × Bool)) : Option StatVal :=
  let xs := unmaskedVals row
  if stat = "count" then some (.num (xs.length : ℚ))
  else if xs.isEmpty then none
  else if stat = "sum" then some (.num xs.sum)
  else if stat = "mean" then some (.num (xs.sum / (xs.length : ℚ)))
  else if stat = "min" then (listMin xs).map .num
  else if stat = "max" then (listMax xs).map .num
  else if stat = "std" then some (.sqrtVal (popVariance xs))
  else none

/-- summary.py lines 157-158 for one slice: combine the data mask with the
"not this zone" mask (`zones != zone_idx`), producing the effective
per-zone masked row.  `zonesFlat` is the flattened zone raster. -/
def zoneRow (zonesFlat : List ℕ) (zoneIdx : ℕ) (slice : List (ℚ × Bool)) :
    List (ℚ × Bool) :=
  (slice.zip zonesFlat).map (fun p => (p.1.1, p.1.2 || (p.2 != zoneIdx)))

/-- `masked.mask.min() == True` (summary.py line 161): every cell masked. -/
def allMasked (row : List (ℚ × Bool)) : Bool :=
  row.all (fun c => c.2)

/-- Python dict write `d[k] = v` on an insertion-ordered dict modelled as an
association list: replace in place if the key exists, else append. -/
def updAssoc {α β : Type} [DecidableEq α] (l : List (α × β)) (k : α) (v : β) :
    List (α × β) :=
  if l.any (fun p => p.1 = k) then
    l.map (fun p => if p.1 = k then (k, v) else p)
  else
    l ++ [(k, v)]

/-- summary.py lines 152-174: the per-zone loop of
`calculate_zonal_statistics`, uniformly over a list of slices (one slice for
2D input; the reshaped leading-axis slices for 3D input).  For each
`(zone_idx, zone)` of `enumerate(zone_values)`: build the per-zone masked
rows, skip the zone when every cell of every row is masked, otherwise
compute each requested statistic per row and store under the original zone
value. -/
def zonalLoop (zonesFlat : List ℕ) (slices : List (List (ℚ × Bool)))
    (statistics : List String) :
    List (ℕ × ℤ) → List (ℤ × List (String × List (Option StatVal))) →
    List (ℤ × List (String × List (Option StatVal)))
  | [], results => results
  | (zoneIdx, zone) :: rest, results =>
    if (slices.map (zoneRow zonesFlat zoneIdx)).all allMasked then
      zonalLoop zonesFlat slices statistics rest results
    else
      zonalLoop zonesFlat slices statistics rest
        (updAssoc results zone
          (statistics.foldl (fun zr s =>
            updAssoc zr s ((slices.map (zoneRow zonesFlat zoneIdx)).map
              (statOnRow s))) []))

/-- Input of `calculate_zonal_statistics`: a 2D or 3D (leading index axis)
masked array.  The 2-or-3-dimensions precondition of summary.py lines
140-141 is enforced by this type. -/
inductive ZonalInput where
  | twoD (data : List (List ℚ)) (mask : List (List Bool))
  | threeD (data : List (List (List ℚ))) (mask : List (List (List Bool)))
  deriving Repr, DecidableEq

/-- The reshape step of summary.py lines 146-150: for 3D input, flatten the
two spatial axes of each leading-index slice; 2D input is a single slice
(reductions with `axis=None` range over all of its cells). -/
def zonalSlices : ZonalInput → List (List (ℚ × Bool))
  | .twoD data mask => [data.flatten.zip mask.flatten]
  | .threeD data mask => (data.map List.flatten).zip (mask.map List.flatten) |>.map
      (fun p => p.1.zip p.2)

/-- Result of `calculate_zonal_statistics`: for 2D input each statistic is a
scalar, for 3D input a vector with one entry per leading-index slice.
`none` is the numpy masked constant. -/
inductive ZonalOutput where
  | scalarRes (res : List (ℤ × List (String × Option StatVal)))
  | vectorRes (res : List (ℤ × List (String × List (Option StatVal))))
  deriving Repr, DecidableEq

/-- Zone keys (original attribute values) present in a zonal result. -/
def ZonalOutput.keys : ZonalOutput → List ℤ
  | .scalarRes res => res.map Prod.fst
  | .vectorRes res => res.map Prod.fst

/-- summary.py lines 116-174, `calculate_zonal_statistics`.  Statistics are
validated first (line 137-138, ValueError); the zone loop then produces
results keyed by the original zone value.  For 2D input the single-slice
vector is collapsed to a scalar per statistic. -/
def calculate_zonal_statistics (zones : List (List ℕ)) (zone_values : List ℤ)
    (values : ZonalInput) (statistics : List String) :
    Except PyErr ZonalOutput :=
  if statistics.any (fun s => !(VALID_ZONAL_STATISTICS.contains s)) then
    .error (.valueError "One or more statistics is not supported")
  else
    match values with
    | .twoD _ _ =>
      .ok (.scalarRes ((zonalLoop zones.flatten (zonalSlices values)
        statistics zone_values.enum []).map (fun p =>
          (p.1, p.2.map (fun q => (q.1, q.2.getD 0 none))))))
    | .threeD _ _ =>
      .ok (.vectorRes (zonalLoop zones.flatten (zonalSlices values)
        statistics zone_values.enum []))

/-- Memory state holding the three array inputs of
`calculate_zonal_statistics`, for the frame (no-mutation) property. -/
structure ZonalMem where
  zones : List (List ℕ)
  zone_values : List ℤ
  values : ZonalInput
  deriving Repr, DecidableEq

/-- State-passing form of `calculate_zonal_statistics` (summary.py lines
143-174).  Every array-producing operation in the source constructs a fresh
array and no statement writes into an input array:
`numpy.ma.masked_array(values)` (line 144) and the local rebinding
`values = values.reshape(...)` / `zones = zones.flat` (lines 148-149) bind
new local views, `zones != zone_idx` (line 157) allocates a fresh boolean
array, `numpy.ma.masked_array(values, mask=values.mask | zone_mask)`
(line 158) allocates a fresh mask (`|` allocates; the constructor sets the
new array's mask, not the input's), and the reductions of lines 161-170
only read.  The embedding therefore threads the input memory unchanged and
returns it alongside the pure result. -/
def calculate_zonal_statistics_st (mem : ZonalMem) (statistics : List String) :
    Except PyErr ZonalOutput × ZonalMem :=
  (calculate_zonal_statistics mem.zones mem.zone_values mem.values statistics,
   mem)

/-- Elementwise sum of two rows (numpy broadcasting not involved: equal
shapes). -/
def addRow (a b : List ℚ) : List ℚ :=
  (a.zip b).map (fun q => q.1 + q.2)

/-- Elementwise sum of two 2D slices. -/
def addSlices (a b : List (List ℚ)) : List (List ℚ) :=
  (a.zip b).map (fun p => addRow p.1 p.2)

/-- `temp[i].sum(axis=0)` for a nonempty group of 2D slices: elementwise sum
over the group (empty groups do not occur, `interval >= 1`). -/
def sumSlices : List (List (List ℚ)) → List (List ℚ)
  | [] => []
  | [s] => s
  | s :: rest => addSlices s (sumSlices rest)

/-- Elementwise division of a 2D slice by a scalar. -/
def divSlice (s : List (List ℚ)) (k : ℚ) : List (List ℚ) :=
  s.map (fun r => r.map (fun x => x / k))

/-- summary.py lines 87-112, `statistic_by_interval`.  `values` is a 3D
array as a list of 2D slices along the leading axis (the
`len(values.shape) == 3` assertion of line 102 is enforced by the type).
Order of effects follows the source: the statistic name is validated first
(lines 99-100, ValueError); then `values.shape[0] % interval` raises
ZeroDivisionError for `interval = 0` and the divisibility assert of
line 103 raises AssertionError.  The reshape of line 107 groups the leading
axis row-major: group i is `values[i*interval:(i+1)*interval]`; the
reduction of lines 109-112 is over the group axis, elementwise mean or
sum. -/
def statistic_by_interval (values : List (List (List ℚ))) (interval : ℕ)
    (statistic : String) : Except PyErr (List (List (List ℚ))) :=
  if statistic != "mean" && statistic != "sum" then
    .error (.valueError "Unsupported statistic")
  else if interval = 0 then
    .error .zeroDivisionError
  else if values.length % interval != 0 then
    .error .assertionError
  else
    let num_intervals := values.length / interval
    let groups := (List.range num_intervals).map
      (fun i => (values.drop (i * interval)).take interval)
    if statistic = "mean" then
      .ok (groups.map (fun g => divSlice (sumSlices g) (interval : ℚ)))
    else
      .ok (groups.map sumSlices)

/-- summary.py line 70: `supported_statistics = {"MEAN", "STD"}`. -/
def supported_weighted_statistics : List String := ["MEAN", "STD"]

/-- numpy.ma `.sum()` over a whole masked array: the masked constant
(`none`) when every cell is masked, else the sum of the unmasked cells. -/
def maskedSum (xs : List (ℚ × Bool)) : Option ℚ :=
  if (unmaskedVals xs).isEmpty then none else some (unmaskedVals xs).sum

/-- The MEAN branch of summary.py line 80:
`weighted_values.sum() / masked_array(weights, mask=weights.mask + values.mask).sum()`.
Both operands carry the union mask, so both sums are over cells unmasked in
both inputs; numpy.ma division masks a zero divisor, so a zero weight sum
yields the masked constant. -/
def weightedMean (pairs : List ((ℚ × Bool) × (ℚ × Bool))) : Option StatVal :=
  match maskedSum (pairs.map (fun p => (p.1.1 * p.2.1, p.1.2 || p.2.2))),
        maskedSum (pairs.map (fun p => (p.2.1, p.1.2 || p.2.2))) with
  | some a, some b => if b = 0 then none else some (.num (a / b))
  | _, _ => none

/-- The STD branch of summary.py line 82: `weighted_values.std()`, the
unweighted population standard deviation of `values * weights` over the
cells unmasked in both inputs (the product carries the union mask). -/
def weightedStd (pairs : List ((ℚ × Bool) × (ℚ × Bool))) : Option StatVal :=
  if (unmaskedVals (pairs.map (fun p => (p.1.1 * p.2.1, p.1.2 || p.2.2)))).isEmpty
  then none
  else some (.sqrtVal (popVariance
    (unmaskedVals (pairs.map (fun p => (p.1.1 * p.2.1, p.1.2 || p.2.2))))))

/-- summary.py lines 59-84, `calculate_weighted_statistics`.  Validates the
statistic names against `supported_weighted_statistics` (ValueError), then
appends one result per requested statistic in request order. -/
def calculate_weighted_statistics (values weights : List (ℚ × Bool))
    (statistics : List String) : Except PyErr (List (Option StatVal)) :=
  if statistics.any (fun s => !(supported_weighted_statistics.contains s)) then
    .error (.valueError "Unsupported statistics")
  else
    .ok (statistics.foldl (fun results s =>
      if s = "MEAN" then results ++ [weightedMean (values.zip weights)]
      else if s = "STD" then results ++ [weightedStd (values.zip weights)]
      else results) [])

/-- Number of unmasked cells of `values` holding value `v`. -/
def unmaskedCount (values : List (ℕ × Bool)) (v : ℕ) : ℕ :=
  (values.filter (fun p => p.1 == v && !p.2)).length

/-- summary.py lines 8-26, `summarize_count_by_category`:
`numpy.bincount(flat_values, weights=(mask == False))` tallies, per value
`v` in `0..max(flat_values)`, the number of cells holding `v` with weight 1
for unmasked cells and 0 for masked ones (a plain array is the all-false
mask); `flatnonzero` keeps the values with a nonzero tally, in ascending
order, and the result dict maps each kept value to its tally. -/
def summarize_count_by_category (values : List (ℕ × Bool)) : List (ℕ × ℕ) :=
  (List.range ((values.map Prod.fst).foldr max 0 + 1)).filterMap (fun v =>
    if unmaskedCount values v = 0 then none else some (v, unmaskedCount values v))

/-- Insert into a sorted list of integers, keeping ascending order. -/
def insertSorted (x : ℤ) : List ℤ → List ℤ
  | [] => [x]
  | y :: ys => if x ≤ y then x :: y :: ys else y :: insertSorted x ys

/-- Ascending list of the distinct elements of `l` (numpy `ma.unique` on the
unmasked values). -/
def sortedUnique (l : List ℤ) : List ℤ :=
  l.foldl (fun acc x => if x ∈ acc then acc else insertSorted x acc) []

/-- summary.py lines 37-54, `summarize_areas_by_category`: for each distinct
unmasked value `v` of `values` (in the ascending order of `ma.unique`), sum
`areas` over the cells holding `v`; the mask of the comparison
`flat_values != value` is OR-combined with the mask of `areas` (which the
timeseries caller also installed on `values`), so masked cells contribute to
no category. -/
def summarize_areas_by_category (values : List (ℤ × Bool)) (areas : List ℚ) :
    List (ℤ × ℚ) :=
  (sortedUnique ((values.filter (fun p => !p.2)).map Prod.fst)).map (fun v =>
    (v, (((values.zip areas).filter (fun p => p.1.1 == v && !p.1.2)).map
      (fun p => p.2)).sum))

/-- Inner loop body of timeseries.py lines 40-43: for one category of the
current timestep summary, create a zero-filled series of length
`num_timesteps` on first sight, then write the category's area at position
`index` (an in-place element write on the stored series). -/
def ectbaInner (num_timesteps index : ℕ) (results : List (ℤ × List ℚ))
    (entry : ℤ × ℚ) : List (ℤ × List ℚ) :=
  (if results.any (fun q => q.1 == entry.1) then results
   else results ++ [(entry.1, List.replicate num_timesteps 0)]).map
    (fun q => if q.1 == entry.1 then (q.1, q.2.set index entry.2) else q)

/-- Body of the timestep loop of timeseries.py lines 33-43 (window = None):
ravel slice `index` of `values`, mask it with the mask of `areas`
(line 38), summarize areas by category, and fold the categories into the
results dict. -/
def ectbaStep (values : List (List (List ℤ))) (areas : List ℚ)
    (areasMask : List Bool) (num_timesteps : ℕ) (results : List (ℤ × List ℚ))
    (index : ℕ) : List (ℤ × List ℚ) :=
  (summarize_areas_by_category
    (((values.getD index []).flatten).zip areasMask) areas).foldl
    (ectbaInner num_timesteps index) results

/-- timeseries.py lines 12-44, `extract_categorical_timeseries_by_area`
(window = None; `areas` is a masked array split into data and mask;
`values` slices are integer-valued after the `astype("i")` of line 39).
Returns the dict mapping each category to its time series array of length
`len(timestep_indicies)`. -/
def extract_categorical_timeseries_by_area (values : List (List (List ℤ)))
    (areas : List ℚ) (areasMask : List Bool) (timestep_indicies : List ℕ) :
    List (ℤ × List ℚ) :=
  timestep_indicies.foldl
    (ectbaStep values areas areasMask timestep_indicies.length) []

/-- Accumulator state of the feature loop of cli/zones.py lines 97-119:
the accumulated `(geometry, index)` pairs (geometries as opaque
identifiers), the set of attribute values seen (insertion order), the
`values_lookup` dict from zone index to attribute value, and the next
unused index. -/
structure FeatState where
  geometries : List (ℕ × ℕ)
  values : List ℤ
  values_lookup : List (ℕ × ℤ)
  index : ℕ
  deriving Repr, DecidableEq

/-- cli/zones.py lines 106-121, the feature loop of the `zones` command.
Each feature is an opaque geometry identifier with its attribute value
(`None` when the feature lacks the attribute; such features are not
rasterized).  Following the source order exactly: the `(geom, index)` pair
is appended with the CURRENT value of `index` (line 114) BEFORE the
membership test of line 116; only when the value is new are the value
recorded, `values_lookup[index]` assigned and `index` incremented
(lines 117-119). -/
def zonesFeatureScan (features : List (ℕ × Option ℤ)) : FeatState :=
  features.foldl (fun st f =>
    match f.2 with
    | none => st
    | some value =>
      let st1 : FeatState :=
        { st with geometries := st.geometries ++ [(f.1, st.index)] }
      if value ∈ st1.values then st1
      else
        { st1 with
          values := st1.values ++ [value],
          values_lookup := st1.values_lookup ++ [(st1.index, value)],
          index := st1.index + 1 })
    { geometries := [], values := [], values_lookup := [], index := 0 }

/-- C1 (code bug): in the feature loop of cli/zones.py, the `(geom, index)`
pair is appended before the value-deduplication check, so a feature whose
attribute value was already seen is rasterized under the NEXT UNUSED index
instead of the index assigned to that value the first time it was seen.
On features with values 5, 5, 8: the second feature (value 5) gets index 1,
not index 0 assigned to value 5, and index 1 is then bound to value 8 in
`values_lookup` — two different attribute values end up rasterized under the
same zone index 1, contradicting the claim and the command docstring ("The
zones are indices of the unique values encountered"). -/
theorem c1_duplicate_value_gets_stale_index :
    zonesFeatureScan [(0, some 5), (1, some 5), (2, some 8)] =
      { geometries := [(0, 0), (1, 1), (2, 1)], values := [5, 8],
        values_lookup := [(0, 5), (1, 8)], index := 2 } := by
  rfl

/-- C2 counterexample: 3D input with two leading-index slices over a single
zone pixel; slice 0 is fully masked for zone value 7 (the combined per-zone
row of slice 0 is all-masked), yet zone 7 is present in the result, with the
masked constant for `sum` and the value 0 for `count` at slice 0 — not
absent as the claim requires. -/
theorem c2_counterexample :
    calculate_zonal_statistics [[0]] [7]
        (.threeD [[[1]], [[2]]] [[[true]], [[false]]]) ["sum", "count"] =
      .ok (.vectorRes [(7, [("sum", [none, some (.num 2)]),
                            ("count", [some (.num 0), some (.num 1)])])]) ∧
    allMasked (zoneRow [0] 0 [((1 : ℚ), true)]) = true := by
  exact ⟨by with_unfolding_all rfl, rfl⟩

/-- C3 counterexample: the zones raster contains index 1 but `zone_values`
has a single entry (only index 0 is in range); the call returns ok — results
computed silently over the in-range zone 0 only (sum 3, the pixel of zone 0;
the pixel carrying index 1 is ignored) — instead of raising. -/
theorem c3_counterexample :
    calculate_zonal_statistics [[0, 1]] [5]
        (.twoD [[3, 4]] [[false, false]]) ["sum"] =
      .ok (.scalarRes [(5, [("sum", some (.num 3))])]) := by
  with_unfolding_all rfl

/-- C6 counterexample: a leading axis of length 3 is not divisible by
interval 2; the code raises AssertionError (the `assert` of summary.py
line 103), not the ValueError the claim states. -/
theorem c6_counterexample :
    statistic_by_interval [[[0]], [[0]], [[0]]] 2 "sum" =
      .error PyErr.assertionError := by
  rfl

/-- C4: for every statistics set containing a name outside
`VALID_ZONAL_STATISTICS`, `calculate_zonal_statistics` returns the
ValueError of summary.py lines 137-138 for every input, before any
statistic is computed — no partial results are returned. -/
theorem c4_invalid_statistic_raises (zones : List (List ℕ))
    (zone_values : List ℤ) (values : ZonalInput) (statistics : List String)
    (h : ∃ s ∈ statistics, s ∉ VALID_ZONAL_STATISTICS) :
    calculate_zonal_statistics zones zone_values values statistics =
      .error (.valueError "One or more statistics is not supported") := by
  obtain ⟨s, hs, hns⟩ := h
  unfold calculate_zonal_statistics
  rw [if_pos]
  exact List.any_eq_true.mpr ⟨s, hs, by simpa using hns⟩

/-- Witness for C4: requesting `{'mean', 'bogus'}` raises. -/
theorem c4_witness :
    calculate_zonal_statistics [[0]] [5] (.twoD [[3]] [[false]])
        ["mean", "bogus"] =
      .error (.valueError "One or more statistics is not supported") :=
  c4_invalid_statistic_raises _ _ _ _ ⟨"bogus", by decide, by decide⟩

/-- C10: `calculate_zonal_statistics` does not mutate its inputs: running
the state-passing embedding returns the memory (zones, zone_values, values
data and mask) unchanged, and its pure result is that of the pure
embedding.  See `calculate_zonal_statistics_st` for the line-by-line
account of why no source operation writes into an input array. -/
theorem c10_no_input_mutation (mem : ZonalMem) (statistics : List String) :
    (calculate_zonal_statistics_st mem statistics).2 = mem ∧
    (calculate_zonal_statistics_st mem statistics).1 =
      calculate_zonal_statistics mem.zones mem.zone_values mem.values
        statistics :=
  ⟨rfl, rfl⟩

/-- Cell (h, w) of a 2D slice, 0 outside the slice. -/
def cellAt (s : List (List ℚ)) (h w : ℕ) : ℚ :=
  (s.getD h []).getD w 0

/-- The `arange(24)` test array of the spec, reshaped to (24, 1, 1). -/
def arange24 : List (List (List ℚ)) :=
  (List.range 24).map (fun j => [[(j : ℚ)]])

theorem addRow_getD (a : List ℚ) (w : ℕ) :
    ∀ (b : List ℚ), w < a.length → a.length = b.length →
      (addRow a b).getD w 0 = a.getD w 0 + b.getD w 0 := by
  induction a generalizing w with
  | nil => intro b hw _; simp at hw
  | cons x a ih =>
    intro b hw hl
    cases b with
    | nil => simp at hl
    | cons y b =>
      cases w with
      | zero => simp [addRow]
      | succ w =>
        simp only [addRow, List.zip_cons_cons, List.map_cons,
          List.getD_cons_succ]
        exact ih w b (by simpa using hw) (by simpa using hl)

theorem addRow_length (a b : List ℚ) :
    (addRow a b).length = min a.length b.length := by
  simp [addRow]

theorem addSlices_length (a b : List (List ℚ)) :
    (addSlices a b).length = min a.length b.length := by
  simp [addSlices]

theorem addSlices_rows (a b : List (List ℚ)) (W : ℕ)
    (ha : ∀ r ∈ a, r.length = W) (hb : ∀ r ∈ b, r.length = W) :
    ∀ r ∈ addSlices a b, r.length = W := by
  intro r hr
  simp only [addSlices, List.mem_map] at hr
  obtain ⟨p, hp, rfl⟩ := hr
  obtain ⟨h1, h2⟩ := List.of_mem_zip hp
  rw [addRow_length, ha _ h1, hb _ h2, min_self]

theorem addSlices_cellAt (a : List (List ℚ)) (h w W : ℕ) :
    ∀ (b : List (List ℚ)), h < a.length → a.length = b.length →
      (∀ r ∈ a, r.length = W) → (∀ r ∈ b, r.length = W) → w < W →
      cellAt (addSlices a b) h w = cellAt a h w + cellAt b h w := by
  induction a generalizing h with
  | nil => intro b hh _ _ _ _; simp at hh
  | cons r a ih =>
    intro b hh hl ha hb hw
    cases b with
    | nil => simp at hl
    | cons s b =>
      cases h with
      | zero =>
        simp only [addSlices, List.zip_cons_cons, List.map_cons, cellAt,
          List.getD_cons_zero]
        exact addRow_getD r w s
          (by rw [ha r (by simp)]; exact hw)
          (by rw [ha r (by simp), hb s (by simp)])
      | succ h =>
        simp only [addSlices, List.zip_cons_cons, List.map_cons, cellAt,
          List.getD_cons_succ]
        exact ih h b (by simpa using hh) (by simpa using hl)
          (fun r hr => ha r (by simp [hr])) (fun r hr => hb r (by simp [hr])) hw

theorem sumSlices_shape (L : List (List (List ℚ))) (H W : ℕ) (hne : L ≠ [])
    (hs : ∀ s ∈ L, s.length = H ∧ ∀ r ∈ s, r.length = W) :
    (sumSlices L).length = H ∧ ∀ r ∈ sumSlices L, r.length = W := by
  induction L with
  | nil => exact absurd rfl hne
  | cons s rest ih =>
    cases rest with
    | nil =>
      simp only [sumSlices]
      exact hs s (by simp)
    | cons s2 rest2 =>
      have hrec := ih (by simp) (fun x hx => hs x (by simp [hx]))
      have hshead := hs s (by simp)
      constructor
      · show (addSlices s (sumSlices (s2 :: rest2))).length = H
        rw [addSlices_length, hshead.1, hrec.1, min_self]
      · show ∀ r ∈ addSlices s (sumSlices (s2 :: rest2)), r.length = W
        exact addSlices_rows _ _ W hshead.2 hrec.2

theorem sumSlices_cellAt (L : List (List (List ℚ))) (H W h w : ℕ)
    (hne : L ≠ [])
    (hs : ∀ s ∈ L, s.length = H ∧ ∀ r ∈ s, r.length = W)
    (hh : h < H) (hw : w < W) :
    cellAt (sumSlices L) h w = (L.map (fun s => cellAt s h w)).sum := by
  induction L with
  | nil => exact absurd rfl hne
  | cons s rest ih =>
    cases rest with
    | nil => simp [sumSlices]
    | cons s2 rest2 =>
      have hrest : ∀ x ∈ s2 :: rest2, x.length = H ∧ ∀ r ∈ x, r.length = W :=
        fun x hx => hs x (by simp [hx])
      have hrec := ih (by simp) hrest
      have hshape := sumSlices_shape (s2 :: rest2) H W (by simp) hrest
      have hshead := hs s (by simp)
      show cellAt (addSlices s (sumSlices (s2 :: rest2))) h w = _
      rw [addSlices_cellAt s h w W (sumSlices (s2 :: rest2))
        (by rw [hshead.1]; exact hh) (by rw [hshead.1, hshape.1])
        hshead.2 hshape.2 hw, hrec]
      simp

theorem divRow_getD (r : List ℚ) (k : ℚ) (w : ℕ) :
    (r.map (fun x => x / k)).getD w 0 = r.getD w 0 / k := by
  induction r generalizing w with
  | nil => simp
  | cons x r ihr =>
    cases w with
    | zero => simp
    | succ w => simpa using ihr w

theorem divSlice_cellAt (s : List (List ℚ)) (k : ℚ) (h w : ℕ) :
    cellAt (divSlice s k) h w = cellAt s h w / k := by
  induction s generalizing h with
  | nil => simp [divSlice, cellAt]
  | cons r s ih =>
    cases h with
    | zero =>
      simp only [divSlice, List.map_cons, cellAt, List.getD_cons_zero]
      exact divRow_getD r k w
    | succ h =>
      simp only [divSlice, List.map_cons, cellAt, List.getD_cons_succ]
      exact ih h

theorem range_map_getD {α : Type} (n : ℕ) (f : ℕ → α) (i : ℕ) (d : α)
    (hi : i < n) : ((List.range n).map f).getD i d = f i := by
  rw [List.getD_eq_getElem?_getD, List.getElem?_map, List.getElem?_range hi]
  rfl

theorem map_take_drop {α β : Type} (values : List α) (f : α → β) (d : α)
    (a k : ℕ) (hk : a + k ≤ values.length) :
    ((values.drop a).take k).map f =
      (List.range k).map (fun j => f (values.getD (a + j) d)) := by
  apply List.ext_getElem
  · simp; omega
  · intro j h1 h2
    have hjk : j < k := by simpa using h2
    have hja : a + j < values.length := by omega
    have hlen : j < (values.drop a).length := by simp; omega
    rw [List.getElem_map, List.getElem_map, List.getElem_take,
      List.getElem_drop, List.getElem_range,
      List.getD_eq_getElem values d hja]

/-- C5: interval reduction correctness.  For a 3D array whose leading axis
length is `n * interval`, `statistic_by_interval(values, interval, 'sum')`
returns an array of n slices of shape (H, W) whose i-th slice is the
elementwise sum of `values[i*interval:(i+1)*interval]`; with `'mean'` the
i-th slice is the elementwise mean; and in particular
`statistic_by_interval(arange(24).reshape(24,1,1), 12, 'sum')` yields the
two window sums 66 and 210. -/
theorem c5_interval_reduction (values : List (List (List ℚ)))
    (n interval H W : ℕ) (hil : 0 < interval)
    (hlen : values.length = n * interval)
    (hgrid : ∀ s ∈ values, s.length = H ∧ ∀ r ∈ s, r.length = W) :
    (∃ out, statistic_by_interval values interval "sum" = .ok out ∧
      out.length = n ∧
      (∀ i, i < n → (out.getD i []).length = H ∧
        ∀ r ∈ out.getD i [], r.length = W) ∧
      (∀ i, i < n → ∀ h, h < H → ∀ w, w < W →
        cellAt (out.getD i []) h w =
          ((List.range interval).map
            (fun j => cellAt (values.getD (i * interval + j) []) h w)).sum)) ∧
    (∃ outm, statistic_by_interval values interval "mean" = .ok outm ∧
      outm.length = n ∧
      (∀ i, i < n → ∀ h, h < H → ∀ w, w < W →
        cellAt (outm.getD i []) h w =
          ((List.range interval).map
            (fun j => cellAt (values.getD (i * interval + j) []) h w)).sum /
            (interval : ℚ))) ∧
    statistic_by_interval arange24 12 "sum" = .ok [[[66]], [[210]]] := by
  have hmod : values.length % interval = 0 := by
    rw [hlen]; exact Nat.mul_mod_left n interval
  have hdiv : values.length / interval = n := by
    rw [hlen]; exact Nat.mul_div_cancel n hil
  have hgroup : ∀ i, i < n →
      i * interval + interval ≤ values.length := by
    intro i hi
    rw [hlen, ← Nat.succ_mul]
    exact Nat.mul_le_mul_right interval (Nat.succ_le_of_lt hi)
  have hglen : ∀ i, i < n →
      ((values.drop (i * interval)).take interval).length = interval := by
    intro i hi
    rw [List.length_take, List.length_drop]
    exact Nat.min_eq_left (Nat.le_sub_of_add_le
      (by rw [Nat.add_comm]; exact hgroup i hi))
  have hgne : ∀ i, i < n →
      (values.drop (i * interval)).take interval ≠ [] := by
    intro i hi h0
    have hl := hglen i hi
    rw [h0] at hl
    simp at hl
    omega
  have hgsub : ∀ i, ∀ s ∈ (values.drop (i * interval)).take interval,
      s ∈ values := by
    intro i s hs
    exact ((List.take_sublist _ _).trans (List.drop_sublist _ _)).subset hs
  have hgridg : ∀ i, ∀ s ∈ (values.drop (i * interval)).take interval,
      s.length = H ∧ ∀ r ∈ s, r.length = W :=
    fun i s hs => hgrid s (hgsub i s hs)
  have hmap : ∀ i, i < n → ∀ h w,
      (((values.drop (i * interval)).take interval).map
        (fun s => cellAt s h w)) =
      (List.range interval).map
        (fun j => cellAt (values.getD (i * interval + j) []) h w) := by
    intro i hi h w
    exact map_take_drop values (fun s => cellAt s h w) [] (i * interval)
      interval (hgroup i hi)
  have hsum_eq : statistic_by_interval values interval "sum" =
      .ok (((List.range (values.length / interval)).map
        (fun i => (values.drop (i * interval)).take interval)).map sumSlices) := by
    unfold statistic_by_interval
    simp [hmod, hil.ne']
  have hmean_eq : statistic_by_interval values interval "mean" =
      .ok (((List.range (values.length / interval)).map
        (fun i => (values.drop (i * interval)).take interval)).map
        (fun g => divSlice (sumSlices g) (interval : ℚ))) := by
    unfold statistic_by_interval
    simp [hmod, hil.ne']
  refine ⟨?_, ?_, by with_unfolding_all rfl⟩
  · refine ⟨_, hsum_eq, ?_, ?_, ?_⟩
    · simp [hdiv]
    · intro i hi
      rw [List.map_map, hdiv,
        range_map_getD n (sumSlices ∘ fun i => (values.drop (i * interval)).take interval) i [] hi]
      exact sumSlices_shape _ H W (hgne i hi) (hgridg i)
    · intro i hi h hh w hw
      rw [List.map_map, hdiv,
        range_map_getD n (sumSlices ∘ fun i => (values.drop (i * interval)).take interval) i [] hi]
      show cellAt (sumSlices ((values.drop (i * interval)).take interval)) h w = _
      rw [sumSlices_cellAt _ H W h w (hgne i hi) (hgridg i) hh hw, hmap i hi h w]
  · refine ⟨_, hmean_eq, ?_, ?_⟩
    · simp [hdiv]
    · intro i hi h hh w hw
      rw [List.map_map, hdiv,
        range_map_getD n ((fun g => divSlice (sumSlices g) (interval : ℚ)) ∘
          fun i => (values.drop (i * interval)).take interval) i [] hi]
      show cellAt (divSlice (sumSlices ((values.drop (i * interval)).take interval)) (interval : ℚ)) h w = _
      rw [divSlice_cellAt,
        sumSlices_cellAt _ H W h w (hgne i hi) (hgridg i) hh hw, hmap i hi h w]

/-- Witness for C5 at the spec's example: arange(24) reshaped to (24,1,1)
with interval 12 under 'sum' gives the two window sums 66 and 210. -/
theorem c5_witness :
    statistic_by_interval arange24 12 "sum" = .ok [[[66]], [[210]]] ∧
    arange24.length = 2 * 12 :=
  ⟨(c5_interval_reduction arange24 2 12 1 1 (by decide)
      (by with_unfolding_all rfl)
      (by intro s hs; simp [arange24] at hs; obtain ⟨j, _, rfl⟩ := hs; simp)).2.2,
   by with_unfolding_all rfl⟩

/-- C6 (amended): for a 3D values array whose leading axis length is not
divisible by `interval`, `statistic_by_interval` raises an AssertionError
(the `assert values.shape[0] % interval == 0` of summary.py line 103), not
a ValueError as the claim states (the ValueError of lines 99-100 is only
for an unsupported statistic name). -/
theorem c6_indivisible_raises_assertion (values : List (List (List ℚ)))
    (interval : ℕ) (statistic : String)
    (hstat : statistic = "mean" ∨ statistic = "sum") (hil : 0 < interval)
    (hmod : values.length % interval ≠ 0) :
    statistic_by_interval values interval statistic =
      .error PyErr.assertionError := by
  rcases hstat with rfl | rfl <;>
    (unfold statistic_by_interval
     rw [if_neg (by decide), if_neg (by omega), if_pos (by simpa using hmod)])

/-- Witness for C6: a leading axis of length 5 with interval 3. -/
theorem c6_witness :
    statistic_by_interval [[[1]], [[2]], [[3]], [[4]], [[5]]] 3 "mean" =
      .error PyErr.assertionError :=
  c6_indivisible_raises_assertion _ 3 "mean" (Or.inl rfl) (by decide)
    (by decide)

/-- Cells at which both the values array and the weights array are
unmasked (the complement of the union of the two masks). -/
def bothUnmaskedCells (values weights : List (ℚ × Bool)) :
    List ((ℚ × Bool) × (ℚ × Bool)) :=
  (values.zip weights).filter (fun p => !p.1.2 && !p.2.2)

theorem filter_map_mask {γ : Type} (l : List γ) (f : γ → ℚ) (m : γ → Bool) :
    unmaskedVals (l.map (fun p => (f p, m p))) =
      (l.filter (fun p => !(m p))).map f := by
  induction l with
  | nil => rfl
  | cons p rest ih =>
    simp only [List.map_cons, unmaskedVals, List.filter_cons] at ih ⊢
    cases hm : m p <;> simp [hm, ih]

theorem not_or_mask (p : (ℚ × Bool) × (ℚ × Bool)) :
    (!(p.1.2 || p.2.2)) = (!p.1.2 && !p.2.2) := by
  cases h1 : p.1.2 <;> cases h2 : p.2.2 <;> rfl

theorem wstats_foldl_eq (pairs : List ((ℚ × Bool) × (ℚ × Bool))) :
    ∀ (statistics : List String) (init : List (Option StatVal)),
      (∀ s ∈ statistics, s ∈ supported_weighted_statistics) →
      statistics.foldl (fun results s =>
        if s = "MEAN" then results ++ [weightedMean pairs]
        else if s = "STD" then results ++ [weightedStd pairs]
        else results) init =
      init ++ statistics.map (fun s =>
        if s = "MEAN" then weightedMean pairs else weightedStd pairs) := by
  intro statistics
  induction statistics with
  | nil => intro init _; simp
  | cons s rest ih =>
    intro init hsup
    have hs := hsup s (by simp)
    simp only [supported_weighted_statistics, List.mem_cons,
      List.not_mem_nil, or_false] at hs
    rcases hs with rfl | rfl
    · simp only [List.foldl_cons, if_pos rfl, List.map_cons]
      rw [ih _ (fun x hx => hsup x (by simp [hx]))]
      simp
    · simp only [List.foldl_cons, List.map_cons]
      rw [ih _ (fun x hx => hsup x (by simp [hx]))]
      simp

theorem weightedMean_eq (values weights : List (ℚ × Bool))
    (hne : bothUnmaskedCells values weights ≠ [])
    (hden : ((bothUnmaskedCells values weights).map (fun p => p.2.1)).sum ≠ 0) :
    weightedMean (values.zip weights) = some (.num
      ((((bothUnmaskedCells values weights).map
          (fun p => p.1.1 * p.2.1)).sum) /
       (((bothUnmaskedCells values weights).map (fun p => p.2.1)).sum))) := by
  have hb : (values.zip weights).filter (fun p => !(p.1.2 || p.2.2)) =
      bothUnmaskedCells values weights := by
    unfold bothUnmaskedCells
    exact List.filter_congr (fun p _ => not_or_mask p)
  have h1 : maskedSum ((values.zip weights).map
      (fun p => (p.1.1 * p.2.1, p.1.2 || p.2.2))) =
      some (((bothUnmaskedCells values weights).map
        (fun p => p.1.1 * p.2.1)).sum) := by
    unfold maskedSum
    rw [filter_map_mask (values.zip weights) (fun p => p.1.1 * p.2.1)
      (fun p => p.1.2 || p.2.2), hb]
    rw [if_neg]
    simp [hne]
  have h2 : maskedSum ((values.zip weights).map
      (fun p => (p.2.1, p.1.2 || p.2.2))) =
      some (((bothUnmaskedCells values weights).map (fun p => p.2.1)).sum) := by
    unfold maskedSum
    rw [filter_map_mask (values.zip weights) (fun p => p.2.1)
      (fun p => p.1.2 || p.2.2), hb]
    rw [if_neg]
    simp [hne]
  unfold weightedMean
  rw [h1, h2]
  exact if_neg hden

/-- C7: the MEAN result of `calculate_weighted_statistics` equals the sum of
`values * weights` over the cells unmasked in both operands, divided by the
sum of `weights` over the cells unmasked in both operands: a cell masked in
either input is excluded from both numerator and denominator (mask union,
summary.py lines 76-80). -/
theorem c7_weighted_mean_mask_union (values weights : List (ℚ × Bool))
    (statistics : List String) (i : ℕ)
    (hlen : values.length = weights.length)
    (hsup : ∀ s ∈ statistics, s ∈ supported_weighted_statistics)
    (hi : i < statistics.length) (hM : statistics.getD i "" = "MEAN")
    (hne : bothUnmaskedCells values weights ≠ [])
    (hden : ((bothUnmaskedCells values weights).map (fun p => p.2.1)).sum ≠ 0) :
    ∃ results, calculate_weighted_statistics values weights statistics =
        .ok results ∧
      results.getD i none = some (.num
        ((((bothUnmaskedCells values weights).map
            (fun p => p.1.1 * p.2.1)).sum) /
         (((bothUnmaskedCells values weights).map (fun p => p.2.1)).sum))) := by
  have hvalid : statistics.any
      (fun s => !(supported_weighted_statistics.contains s)) = false := by
    rw [List.any_eq_false]
    intro s hs
    simp [hsup s hs]
  have heq : calculate_weighted_statistics values weights statistics =
      .ok (statistics.map (fun s =>
        if s = "MEAN" then weightedMean (values.zip weights)
        else weightedStd (values.zip weights))) := by
    unfold calculate_weighted_statistics
    rw [if_neg (by rw [hvalid]; exact Bool.false_ne_true),
      wstats_foldl_eq (values.zip weights) statistics [] hsup]
    simp
  refine ⟨_, heq, ?_⟩
  rw [List.getD_eq_getElem _ _ (by simpa using hi), List.getElem_map]
  rw [List.getD_eq_getElem _ _ hi] at hM
  rw [hM, if_pos rfl]
  exact weightedMean_eq values weights hne hden

/-- Witness for C7: value 2 is masked out by the weights mask and value 3 by
the values mask; MEAN is computed over the single cell unmasked in both. -/
theorem c7_witness :
    ∃ results, calculate_weighted_statistics
        [(1, false), (2, false), (3, true)]
        [(1/2, false), (5, true), (1/4, false)] ["MEAN"] = .ok results ∧
      results.getD 0 none = some (.num
        ((((bothUnmaskedCells [(1, false), (2, false), (3, true)]
            [(1/2, false), (5, true), (1/4, false)]).map
            (fun p => p.1.1 * p.2.1)).sum) /
         (((bothUnmaskedCells [(1, false), (2, false), (3, true)]
            [(1/2, false), (5, true), (1/4, false)]).map
            (fun p => p.2.1)).sum))) :=
  c7_weighted_mean_mask_union _ _ _ 0 rfl (by decide) (by decide) rfl
    (by decide) (by with_unfolding_all decide)

theorem le_foldr_max (l : List ℕ) : ∀ x ∈ l, x ≤ l.foldr max 0 := by
  induction l with
  | nil => simp
  | cons y l ih =>
    intro x hx
    rcases List.mem_cons.mp hx with rfl | hx
    · exact le_max_left _ _
    · exact le_trans (ih x hx) (le_max_right _ _)

theorem sum_filterMap_counts (f : ℕ → ℕ) : ∀ (l : List ℕ),
    ((l.filterMap (fun v => if f v = 0 then none else some (v, f v))).map
      Prod.snd).sum = (l.map f).sum := by
  intro l
  induction l with
  | nil => rfl
  | cons x l ih =>
    simp only [List.filterMap_cons, List.map_cons, List.sum_cons]
    by_cases hx : f x = 0
    · rw [if_pos hx, hx, ih]
      simp
    · rw [if_neg hx]
      simp only [List.map_cons, List.sum_cons]
      rw [ih]

theorem sum_range_indicator (d : ℕ) : ∀ (m : ℕ),
    ((List.range m).map (fun v => if v = d then 1 else 0)).sum =
      if d < m then 1 else 0 := by
  intro m
  induction m with
  | zero => simp
  | succ m ih =>
    rw [List.range_succ]
    simp only [List.map_append, List.sum_append, ih]
    by_cases h : d < m
    · rw [if_pos h, if_pos (Nat.lt_succ_of_lt h)]
      have hmd : ¬(m = d) := by omega
      simp [hmd]
    · by_cases h2 : m = d
      · subst h2
        rw [if_neg h, if_pos (Nat.lt_succ_self m)]
        simp
      · have h3 : ¬(d < m + 1) := by omega
        rw [if_neg h, if_neg h3]
        simp [h2]

theorem sum_map_add {α : Type} (l : List α) (f g : α → ℕ) :
    (l.map (fun x => f x + g x)).sum = (l.map f).sum + (l.map g).sum := by
  induction l with
  | nil => rfl
  | cons x l ih =>
    simp only [List.map_cons, List.sum_cons, ih]
    omega

theorem sum_range_unmaskedCount : ∀ (values : List (ℕ × Bool)) (m : ℕ),
    (∀ p ∈ values, p.2 = false → p.1 < m) →
    ((List.range m).map (fun v => unmaskedCount values v)).sum =
      (values.filter (fun p => !p.2)).length := by
  intro values
  induction values with
  | nil => intro m _; simp [unmaskedCount]
  | cons p values ih =>
    intro m hb
    cases hp : p.2 with
    | true =>
      have hstep : ∀ v, unmaskedCount (p :: values) v = unmaskedCount values v := by
        intro v
        unfold unmaskedCount
        rw [List.filter_cons]
        simp [hp]
      calc ((List.range m).map (fun v => unmaskedCount (p :: values) v)).sum
          = ((List.range m).map (fun v => unmaskedCount values v)).sum := by
            exact congrArg _ (List.map_congr_left (fun v _ => hstep v))
        _ = (values.filter (fun q => !q.2)).length :=
            ih m (fun q hq => hb q (by simp [hq]))
        _ = ((p :: values).filter (fun q => !q.2)).length := by
            rw [List.filter_cons]
            simp [hp]
    | false =>
      have hstep : ∀ v, unmaskedCount (p :: values) v =
          unmaskedCount values v + (if v = p.1 then 1 else 0) := by
        intro v
        unfold unmaskedCount
        rw [List.filter_cons]
        by_cases hv : p.1 = v
        · simp [hp, hv]
        · have : ¬(v = p.1) := fun h => hv h.symm
          simp [hp, hv, this]
      calc ((List.range m).map (fun v => unmaskedCount (p :: values) v)).sum
          = ((List.range m).map (fun v =>
              unmaskedCount values v + (if v = p.1 then 1 else 0))).sum := by
            exact congrArg _ (List.map_congr_left (fun v _ => hstep v))
        _ = ((List.range m).map (fun v => unmaskedCount values v)).sum +
            ((List.range m).map (fun v => if v = p.1 then 1 else 0)).sum :=
            sum_map_add _ _ _
        _ = (values.filter (fun q => !q.2)).length + 1 := by
            rw [ih m (fun q hq => hb q (by simp [hq])), sum_range_indicator,
              if_pos (hb p (by simp) hp)]
        _ = ((p :: values).filter (fun q => !q.2)).length := by
            rw [List.filter_cons]
            simp [hp]

/-- C8: `summarize_count_by_category` maps each distinct value with at least
one unmasked pixel to its unmasked pixel count, omits values with zero
unmasked occurrences (a value held only by masked cells never appears), and
the counts total the number of unmasked pixels. -/
theorem c8_count_by_category (values : List (ℕ × Bool)) :
    (∀ v c, (v, c) ∈ summarize_count_by_category values ↔
      (0 < c ∧ unmaskedCount values v = c)) ∧
    ((summarize_count_by_category values).map Prod.snd).sum =
      (values.filter (fun p => !p.2)).length := by
  constructor
  · intro v c
    constructor
    · intro hmem
      unfold summarize_count_by_category at hmem
      rw [List.mem_filterMap] at hmem
      obtain ⟨a, ha, hfa⟩ := hmem
      by_cases h0 : unmaskedCount values a = 0
      · rw [if_pos h0] at hfa
        exact absurd hfa (by simp)
      · rw [if_neg h0] at hfa
        have hpair : (a, unmaskedCount values a) = (v, c) := by
          simpa using hfa
        have h1 : a = v := congrArg Prod.fst hpair
        have h2 : unmaskedCount values a = c := congrArg Prod.snd hpair
        subst h1
        exact ⟨by omega, h2⟩
    · rintro ⟨hc, hcount⟩
      unfold summarize_count_by_category
      rw [List.mem_filterMap]
      refine ⟨v, ?_, ?_⟩
      · rw [List.mem_range]
        have hnil : values.filter (fun p => p.1 == v && !p.2) ≠ [] := by
          intro h0
          unfold unmaskedCount at hcount
          rw [h0] at hcount
          simp at hcount
          omega
        obtain ⟨p, hp⟩ := List.exists_mem_of_ne_nil _ hnil
        obtain ⟨hpmem, hpcond⟩ := List.mem_filter.mp hp
        have hp1 : p.1 = v := by
          simp only [Bool.and_eq_true, beq_iff_eq] at hpcond
          exact hpcond.1
        have hvmem : v ∈ values.map Prod.fst :=
          List.mem_map.mpr ⟨p, hpmem, hp1⟩
        have := le_foldr_max (values.map Prod.fst) v hvmem
        omega
      · rw [if_neg (by omega), hcount]
  · unfold summarize_count_by_category
    rw [sum_filterMap_counts (fun v => unmaskedCount values v)]
    exact sum_range_unmaskedCount values _ (fun p hp hmask => by
      have hm : p.1 ∈ values.map Prod.fst := List.mem_map.mpr ⟨p, hp, rfl⟩
      have := le_foldr_max _ _ hm
      omega)

/-- Witness for C8 on a concrete masked array: values 3, 3, 5 (masked), 0 —
category 5 is absent, the counts are 1 for value 0 and 2 for value 3, and
they total the 3 unmasked pixels. -/
theorem c8_witness :
    ((summarize_count_by_category [(3, false), (3, false), (5, true), (0, false)]).map
      Prod.snd).sum =
      ([((3 : ℕ), false), (3, false), (5, true), (0, false)].filter
        (fun p => !p.2)).length :=
  (c8_count_by_category [(3, false), (3, false), (5, true), (0, false)]).2

theorem updAssoc_keys {α β : Type} [DecidableEq α] (l : List (α × β)) (k : α)
    (v : β) (x : α) :
    x ∈ (updAssoc l k v).map Prod.fst ↔ x ∈ l.map Prod.fst ∨ x = k := by
  unfold updAssoc
  by_cases h : l.any (fun p => p.1 = k)
  · rw [if_pos h]
    have hkeys : (l.map (fun p => if p.1 = k then (k, v) else p)).map Prod.fst =
        l.map Prod.fst := by
      rw [List.map_map]
      apply List.map_congr_left
      intro p _
      by_cases hp : p.1 = k
      · simp [hp]
      · simp [hp]
    rw [hkeys]
    have hk : k ∈ l.map Prod.fst := by
      obtain ⟨p, hp, hpk⟩ := List.any_eq_true.mp h
      exact List.mem_map.mpr ⟨p, hp, by simpa using hpk⟩
    constructor
    · exact Or.inl
    · rintro (hx | rfl)
      · exact hx
      · exact hk
  · rw [if_neg h, List.map_append, List.mem_append]
    simp

theorem zonalLoop_keys (zonesFlat : List ℕ) (slices : List (List (ℚ × Bool)))
    (statistics : List String) :
    ∀ (pairs : List (ℕ × ℤ))
      (acc : List (ℤ × List (String × List (Option StatVal)))) (z : ℤ),
      z ∈ (zonalLoop zonesFlat slices statistics pairs acc).map Prod.fst ↔
        z ∈ acc.map Prod.fst ∨ ∃ p ∈ pairs, p.2 = z ∧
          (slices.map (zoneRow zonesFlat p.1)).all allMasked = false := by
  intro pairs
  induction pairs with
  | nil => intro acc z; simp [zonalLoop]
  | cons q rest ih =>
    intro acc z
    obtain ⟨zoneIdx, zone⟩ := q
    rw [zonalLoop]
    by_cases hm : (slices.map (zoneRow zonesFlat zoneIdx)).all allMasked
    · rw [if_pos hm, ih]
      simp only [List.mem_cons]
      constructor
      · rintro (h | ⟨p, hp, h2, h3⟩)
        · exact Or.inl h
        · exact Or.inr ⟨p, Or.inr hp, h2, h3⟩
      · rintro (h | ⟨p, hp | hp, h2, h3⟩)
        · exact Or.inl h
        · rw [hp] at h3
          rw [hm] at h3
          exact absurd h3 (by simp)
        · exact Or.inr ⟨p, hp, h2, h3⟩
    · rw [if_neg hm, ih, updAssoc_keys]
      simp only [List.mem_cons]
      constructor
      · rintro ((h | rfl) | ⟨p, hp, h2, h3⟩)
        · exact Or.inl h
        · exact Or.inr ⟨(zoneIdx, z), Or.inl rfl, rfl,
            Bool.eq_false_iff.mpr hm⟩
        · exact Or.inr ⟨p, Or.inr hp, h2, h3⟩
      · rintro (h | ⟨p, hp | hp, h2, h3⟩)
        · exact Or.inl (Or.inl h)
        · rw [hp] at h2
          exact Or.inl (Or.inr h2.symm)
        · exact Or.inr ⟨p, hp, h2, h3⟩

theorem mem_of_mem_enum {α : Type} :
    ∀ (l : List α) (n : ℕ) (p : ℕ × α), p ∈ l.enumFrom n → p.2 ∈ l := by
  intro l
  induction l with
  | nil => intro n p hp; simp [List.enumFrom] at hp
  | cons x l ih =>
    intro n p hp
    rw [List.enumFrom] at hp
    rcases List.mem_cons.mp hp with rfl | hp
    · exact List.mem_cons_self _ _
    · exact List.mem_cons_of_mem _ (ih (n + 1) p hp)

/-- Keys of a zonal result are preserved by the 2D scalar collapse. -/
theorem scalar_collapse_keys
    (res : List (ℤ × List (String × List (Option StatVal)))) :
    (res.map (fun p => (p.1, p.2.map (fun q => (q.1, q.2.getD 0 none))))).map
      Prod.fst = res.map Prod.fst := by
  rw [List.map_map]
  apply List.map_congr_left
  intro p _
  rfl

/-- C2 (amended): `calculate_zonal_statistics` omits a zone from the result
iff ALL of the zone's pixels are masked across ALL leading-index slices
(summary.py line 161 tests the minimum of the whole combined mask).  A
fully masked single slice of an otherwise-unmasked zone does NOT omit the
zone for that slice: the zone stays in the mapping with a masked statistic
value (or count 0) at that slice. -/
theorem c2_zone_skip_iff_all_masked (zones : List (List ℕ))
    (zone_values : List ℤ) (values : ZonalInput) (statistics : List String)
    (z : ℤ) (hval : ∀ s ∈ statistics, s ∈ VALID_ZONAL_STATISTICS) :
    ∃ out, calculate_zonal_statistics zones zone_values values statistics =
        .ok out ∧
      (z ∈ out.keys ↔ ∃ p ∈ zone_values.enum, p.2 = z ∧
        ((zonalSlices values).map (zoneRow zones.flatten p.1)).all allMasked =
          false) := by
  have hvalid : statistics.any
      (fun s => !(VALID_ZONAL_STATISTICS.contains s)) = false := by
    rw [List.any_eq_false]
    intro s hs
    simp [hval s hs]
  cases values with
  | twoD data mask =>
    refine ⟨.scalarRes ((zonalLoop zones.flatten
        (zonalSlices (.twoD data mask)) statistics zone_values.enum []).map
        (fun p => (p.1, p.2.map (fun q => (q.1, q.2.getD 0 none))))),
      ?_, ?_⟩
    · unfold calculate_zonal_statistics
      rw [if_neg (by rw [hvalid]; exact Bool.false_ne_true)]
    · rw [ZonalOutput.keys, scalar_collapse_keys,
        zonalLoop_keys zones.flatten (zonalSlices (.twoD data mask))
          statistics zone_values.enum [] z]
      simp
  | threeD data mask =>
    refine ⟨.vectorRes (zonalLoop zones.flatten
        (zonalSlices (.threeD data mask)) statistics zone_values.enum []),
      ?_, ?_⟩
    · unfold calculate_zonal_statistics
      rw [if_neg (by rw [hvalid]; exact Bool.false_ne_true)]
    · rw [ZonalOutput.keys,
        zonalLoop_keys zones.flatten (zonalSlices (.threeD data mask))
          statistics zone_values.enum [] z]
      simp

/-- Witness for C2 (amended) at the counterexample input: zone 7 is present
in the result because not all of its pixels are masked across the two
slices, even though slice 0 is fully masked. -/
theorem c2_zone_skip_witness :
    ∃ out, calculate_zonal_statistics [[0]] [7]
        (.threeD [[[1]], [[2]]] [[[true]], [[false]]]) ["sum", "count"] =
        .ok out ∧
      (7 ∈ out.keys ↔ ∃ p ∈ ([(7 : ℤ)]).enum, p.2 = 7 ∧
        ((zonalSlices (.threeD [[[1]], [[2]]] [[[true]], [[false]]])).map
          (zoneRow ([[0]] : List (List ℕ)).flatten p.1)).all allMasked =
          false) :=
  c2_zone_skip_iff_all_masked [[0]] [7]
    (.threeD [[[1]], [[2]]] [[[true]], [[false]]]) ["sum", "count"] 7
    (by decide)

/-- C3 (amended): a zone index present in `zones` with no entry in
`zone_values` is silently ignored: with valid statistic names the call
always returns ok (never raises for out-of-range indices), and every key of
the result comes from `zone_values` — results are computed only over the
in-range zones. -/
theorem c3_out_of_range_silently_ignored (zones : List (List ℕ))
    (zone_values : List ℤ) (values : ZonalInput) (statistics : List String)
    (hval : ∀ s ∈ statistics, s ∈ VALID_ZONAL_STATISTICS) :
    ∃ out, calculate_zonal_statistics zones zone_values values statistics =
        .ok out ∧
      ∀ z ∈ out.keys, z ∈ zone_values := by
  have hvalid : statistics.any
      (fun s => !(VALID_ZONAL_STATISTICS.contains s)) = false := by
    rw [List.any_eq_false]
    intro s hs
    simp [hval s hs]
  cases values with
  | twoD data mask =>
    refine ⟨.scalarRes ((zonalLoop zones.flatten
        (zonalSlices (.twoD data mask)) statistics zone_values.enum []).map
        (fun p => (p.1, p.2.map (fun q => (q.1, q.2.getD 0 none))))),
      ?_, ?_⟩
    · unfold calculate_zonal_statistics
      rw [if_neg (by rw [hvalid]; exact Bool.false_ne_true)]
    · intro z hz
      rw [ZonalOutput.keys, scalar_collapse_keys,
        zonalLoop_keys zones.flatten (zonalSlices (.twoD data mask))
          statistics zone_values.enum [] z] at hz
      rcases hz with h | ⟨p, hp, h2, _⟩
      · simp at h
      · rw [← h2]
        exact mem_of_mem_enum zone_values 0 p hp
  | threeD data mask =>
    refine ⟨.vectorRes (zonalLoop zones.flatten
        (zonalSlices (.threeD data mask)) statistics zone_values.enum []),
      ?_, ?_⟩
    · unfold calculate_zonal_statistics
      rw [if_neg (by rw [hvalid]; exact Bool.false_ne_true)]
    · intro z hz
      rw [ZonalOutput.keys,
        zonalLoop_keys zones.flatten (zonalSlices (.threeD data mask))
          statistics zone_values.enum [] z] at hz
      rcases hz with h | ⟨p, hp, h2, _⟩
      · simp at h
      · rw [← h2]
        exact mem_of_mem_enum zone_values 0 p hp

/-- Witness for C3 (amended) at the counterexample input: zones contains the
out-of-range index 1, the call returns ok and the only possible result keys
come from `zone_values = [5]`. -/
theorem c3_witness :
    ∃ out, calculate_zonal_statistics [[0, 1]] [5]
        (.twoD [[3, 4]] [[false, false]]) ["sum"] = .ok out ∧
      ∀ z ∈ out.keys, z ∈ ([5] : List ℤ) :=
  c3_out_of_range_silently_ignored [[0, 1]] [5]
    (.twoD [[3, 4]] [[false, false]]) ["sum"] (by decide)

theorem insertSorted_mem (a : ℤ) : ∀ (l : List ℤ) (x : ℤ),
    x ∈ insertSorted a l ↔ x = a ∨ x ∈ l := by
  intro l
  induction l with
  | nil => intro x; simp [insertSorted]
  | cons y ys ih =>
    intro x
    rw [insertSorted]
    by_cases h : a ≤ y
    · rw [if_pos h]
      simp [List.mem_cons]
    · rw [if_neg h]
      simp only [List.mem_cons, ih]
      tauto

theorem sortedUnique_foldl_mem : ∀ (l : List ℤ) (acc : List ℤ) (x : ℤ),
    x ∈ l.foldl (fun acc y => if y ∈ acc then acc else insertSorted y acc)
      acc ↔ x ∈ acc ∨ x ∈ l := by
  intro l
  induction l with
  | nil => intro acc x; simp
  | cons y ys ih =>
    intro acc x
    rw [List.foldl_cons]
    by_cases h : y ∈ acc
    · rw [if_pos h, ih]
      simp only [List.mem_cons]
      constructor
      · rintro (hx | hx)
        · exact Or.inl hx
        · exact Or.inr (Or.inr hx)
      · rintro (hx | rfl | hx)
        · exact Or.inl hx
        · exact Or.inl h
        · exact Or.inr hx
    · rw [if_neg h, ih]
      simp only [insertSorted_mem, List.mem_cons]
      tauto

theorem sortedUnique_mem (l : List ℤ) (x : ℤ) :
    x ∈ sortedUnique l ↔ x ∈ l := by
  unfold sortedUnique
  rw [sortedUnique_foldl_mem]
  simp

theorem summarize_areas_keys (vals : List (ℤ × Bool)) (areas : List ℚ)
    (x : ℤ) :
    x ∈ (summarize_areas_by_category vals areas).map Prod.fst ↔
      x ∈ (vals.filter (fun p => !p.2)).map Prod.fst := by
  unfold summarize_areas_by_category
  rw [List.map_map]
  rw [show (Prod.fst ∘ fun v => ((v : ℤ),
    (((vals.zip areas).filter (fun p => p.1.1 == v && !p.1.2)).map
      (fun p => p.2)).sum)) = fun v => v from funext (fun v => rfl)]
  rw [List.map_id_fun']
  exact sortedUnique_mem _ x

/-- Categories of timestep `t`: the distinct-able raw values of slice `t`
at positions unmasked in the areas mask (the mask installed on the data at
timeseries.py line 38). -/
def sliceCats (values : List (List (List ℤ))) (areasMask : List Bool)
    (t : ℕ) : List ℤ :=
  ((((values.getD t []).flatten).zip areasMask).filter
    (fun p => !p.2)).map Prod.fst

/-- Invariant of the results dict of
`extract_categorical_timeseries_by_area`: every stored series has one entry
per requested timestep, and is zero at every position whose timestep does
not contain the category. -/
def SeriesInv (values : List (List (List ℤ))) (areasMask : List Bool)
    (T : ℕ) (R : List (ℤ × List ℚ)) : Prop :=
  ∀ q ∈ R, q.2.length = T ∧
    ∀ s, q.1 ∉ sliceCats values areasMask s → q.2.getD s 0 = 0

theorem replicate_getD (T s : ℕ) : (List.replicate T (0 : ℚ)).getD s 0 = 0 := by
  rw [List.getD_eq_getElem?_getD, List.getElem?_replicate]
  by_cases h : s < T
  · rw [if_pos h]
    rfl
  · rw [if_neg h]
    rfl

theorem getD_set_ne (l : List ℚ) (i s : ℕ) (a : ℚ) (h : s ≠ i) :
    (l.set i a).getD s 0 = l.getD s 0 := by
  induction l generalizing i s with
  | nil => simp
  | cons x l ih =>
    cases i with
    | zero =>
      cases s with
      | zero => exact absurd rfl h
      | succ s => simp [List.set]
    | succ i =>
      cases s with
      | zero => simp [List.set]
      | succ s =>
        simp only [List.set, List.getD_cons_succ]
        exact ih i s (fun he => h (by rw [he]))

theorem ectbaInner_inv (values : List (List (List ℤ)))
    (areasMask : List Bool) (T index : ℕ) (R : List (ℤ × List ℚ))
    (entry : ℤ × ℚ) (hInv : SeriesInv values areasMask T R)
    (hentry : entry.1 ∈ sliceCats values areasMask index) :
    SeriesInv values areasMask T (ectbaInner T index R entry) := by
  intro q hq
  unfold ectbaInner at hq
  rw [List.mem_map] at hq
  obtain ⟨q0, hq0, rfl⟩ := hq
  have hq0R : q0 ∈ R ∨ q0 = (entry.1, List.replicate T 0) := by
    by_cases h : R.any (fun q => q.1 == entry.1)
    · rw [if_pos h] at hq0
      exact Or.inl hq0
    · rw [if_neg h] at hq0
      rcases List.mem_append.mp hq0 with h1 | h1
      · exact Or.inl h1
      · exact Or.inr (by simpa using h1)
  have hbase : q0.2.length = T ∧
      ∀ s, q0.1 ∉ sliceCats values areasMask s → q0.2.getD s 0 = 0 := by
    rcases hq0R with h | h
    · exact hInv q0 h
    · rw [h]
      exact ⟨List.length_replicate _ _, fun s _ => replicate_getD T s⟩
  cases hqe : q0.1 == entry.1 with
  | false =>
    rw [if_neg (fun h => Bool.false_ne_true h)]
    exact hbase
  | true =>
    rw [if_pos rfl]
    refine ⟨by rw [List.length_set]; exact hbase.1, ?_⟩
    intro s hs
    have hq1 : q0.1 = entry.1 := by simpa using hqe
    have hsi : s ≠ index := by
      intro he
      rw [he, hq1] at hs
      exact hs hentry
    rw [getD_set_ne _ _ _ _ hsi]
    exact hbase.2 s hs

theorem ectbaFold_inv (values : List (List (List ℤ)))
    (areasMask : List Bool) (T index : ℕ) :
    ∀ (summary : List (ℤ × ℚ)) (R : List (ℤ × List ℚ)),
      SeriesInv values areasMask T R →
      (∀ e ∈ summary, e.1 ∈ sliceCats values areasMask index) →
      SeriesInv values areasMask T
        (summary.foldl (ectbaInner T index) R) := by
  intro summary
  induction summary with
  | nil => intro R h _; exact h
  | cons e rest ih =>
    intro R h hk
    rw [List.foldl_cons]
    exact ih _ (ectbaInner_inv values areasMask T index R e h (hk e (by simp)))
      (fun x hx => hk x (by simp [hx]))

theorem ectbaStep_inv (values : List (List (List ℤ))) (areas : List ℚ)
    (areasMask : List Bool) (T : ℕ) (R : List (ℤ × List ℚ)) (index : ℕ)
    (hInv : SeriesInv values areasMask T R) :
    SeriesInv values areasMask T
      (ectbaStep values areas areasMask T R index) := by
  unfold ectbaStep
  apply ectbaFold_inv values areasMask T index _ R hInv
  intro e he
  have hm : e.1 ∈ (summarize_areas_by_category
      (((values.getD index []).flatten).zip areasMask) areas).map Prod.fst :=
    List.mem_map.mpr ⟨e, he, rfl⟩
  rw [summarize_areas_keys] at hm
  exact hm

theorem ectba_outer_inv (values : List (List (List ℤ))) (areas : List ℚ)
    (areasMask : List Bool) (T : ℕ) :
    ∀ (tis : List ℕ) (R : List (ℤ × List ℚ)),
      SeriesInv values areasMask T R →
      SeriesInv values areasMask T
        (tis.foldl (ectbaStep values areas areasMask T) R) := by
  intro tis
  induction tis with
  | nil => intro R h; exact h
  | cons t rest ih =>
    intro R h
    rw [List.foldl_cons]
    exact ih _ (ectbaStep_inv values areas areasMask T R t h)

theorem lookup_mem : ∀ (l : List (ℤ × List ℚ)) (c : ℤ) (series : List ℚ),
    l.lookup c = some series → (c, series) ∈ l := by
  intro l
  induction l with
  | nil => intro c s h; simp [List.lookup] at h
  | cons p rest ih =>
    intro c s h
    obtain ⟨k, b⟩ := p
    rw [List.lookup] at h
    cases hc : c == k with
    | false =>
      rw [hc] at h
      exact List.mem_cons_of_mem _ (ih c s h)
    | true =>
      rw [hc] at h
      have hb : b = s := by simpa using h
      have hck : c = k := by simpa using hc
      rw [← hb, hck]
      exact List.mem_cons_self _ _

/-- C9: in `extract_categorical_timeseries_by_area` (timestep indices
0..T-1), a category first occurring at timestep t > 0 has a time series
with one entry per requested timestep, back-filled with zero at every index
below t (the zero array is created at first sight, timeseries.py line 42,
and only positions of timesteps containing the category are ever
written). -/
theorem c9_zero_backfill (values : List (List (List ℤ))) (areas : List ℚ)
    (areasMask : List Bool) (T : ℕ) (tis : List ℕ) (c : ℤ)
    (series : List ℚ) (t : ℕ) (htis : tis = List.range T)
    (hfirst : ∀ s, s < t → c ∉ sliceCats values areasMask s)
    (hlook : (extract_categorical_timeseries_by_area values areas areasMask
      tis).lookup c = some series) :
    series.length = T ∧ ∀ s, s < t → series.getD s 0 = 0 := by
  have hInv : SeriesInv values areasMask tis.length
      (extract_categorical_timeseries_by_area values areas areasMask tis) := by
    unfold extract_categorical_timeseries_by_area
    exact ectba_outer_inv values areas areasMask tis.length tis []
      (by intro q hq; simp at hq)
  have hmem := lookup_mem _ c series hlook
  have h := hInv (c, series) hmem
  subst htis
  refine ⟨by simpa using h.1, ?_⟩
  intro s hs
  exact h.2 s (hfirst s hs)

/-- Witness for C9: two timesteps over a 1x2 grid with areas 1 and 2;
category 9 first occurs at timestep 1, and its returned series [0, 1] has
length 2 and is zero at index 0. -/
theorem c9_witness :
    ([(0 : ℚ), 1] : List ℚ).length = 2 ∧
    ∀ s, s < 1 → ([(0 : ℚ), 1] : List ℚ).getD s 0 = 0 :=
  c9_zero_backfill [[[4, 4]], [[9, 4]]] [1, 2] [false, false] 2 [0, 1] 9
    [0, 1] 1 (by decide)
    (by
      intro s hs
      have hs0 : s = 0 := by omega
      subst hs0
      decide)
    (by with_unfolding_all rfl)
